import Mathlib

/-!
Verification of the upb arena wrapper (`src/rust/upb/arena.rs`).

The Rust file under verification is a thin wrapper over the native upb
arena allocator (`upb_Arena_New/Malloc/Fuse/Free`), whose implementation is
not part of the sources; its behaviour (chained-block bump allocation with
a growth policy, and lifetime fusion with a reference-counted group) is
modelled from the specification.  The wrapper's own logic — the
`debug_assert!`/`assert!` alignment checks, `handle_alloc_error` on a null
malloc result, the byte-copying of `copy_in`/`copy_slice_in`/`copy_str_in`,
the panic on fuse failure, and the raw-handle escape hatch — is embedded
directly from the source.

Process termination (panic / abort / `handle_alloc_error`) is modelled by
`Option`: a `none` result means the call never returns to the caller, so
no value of any kind (and in particular no error value) is handed back.
-/

/-- Modelled from the spec: `UPB_MALLOC_ALIGN`, imported by the wrapper from
`super::sys::arena` (not in the sources).  The fixed alignment ceiling of
the allocator ("a fixed ceiling, e.g. 16 bytes"); every pointer handed out
by `upb_Arena_Malloc` is aligned to this. -/
def UPB_MALLOC_ALIGN : Nat := 16

/-- Modelled from the spec: the default size of the first block of a fresh
arena ("start at a configurable default (e.g. 256 bytes)"). -/
def DEFAULT_BLOCK_SIZE : Nat := 256

/-- Modelled from the spec: the cap of the block growth policy, "after
which growth is linear at the cap size". -/
def GROWTH_CAP : Nat := 32768

/-- Round `n` up to the next multiple of `a` (alignment bookkeeping of the
bump allocator). -/
def alignUp (n a : Nat) : Nat := (n + a - 1) / a * a

theorem alignUp_dvd (n a : Nat) : a ∣ alignUp n a :=
  dvd_mul_left a ((n + a - 1) / a)

theorem le_alignUp (n : Nat) {a : Nat} (ha : 0 < a) : n ≤ alignUp n a := by
  have h1 : (n + a - 1) / a * a + (n + a - 1) % a = n + a - 1 := Nat.div_add_mod' _ _
  have h2 : (n + a - 1) % a < a := Nat.mod_lt _ ha
  unfold alignUp
  generalize (n + a - 1) / a * a = q at h1 ⊢
  omega

theorem alignUp_zero {a : Nat} : alignUp 0 a = 0 := by
  unfold alignUp
  rcases Nat.eq_zero_or_pos a with h | h
  · simp [h]
  · have h1 : (a - 1) / a = 0 := Nat.div_eq_of_lt (by omega)
    simp [h1]

/-- A memory region handed out by the allocator, identified by the block it
lives in, its byte offset inside that block, and its length in bytes.  Block
identities stand for the disjoint backing buffers; `start` is the offset the
bump cursor produced. -/
structure Region where
  block : Nat
  start : Nat
  size : Nat
deriving DecidableEq

/-- The concrete address of a region once every block is laid out in memory:
`base b` is the starting address of block `b`. -/
def Region.addr (base : Nat → Nat) (r : Region) : Nat := base r.block + r.start

/-- Byte `x` of block `b` lies inside region `r`. -/
def Region.contains (r : Region) (b x : Nat) : Prop :=
  b = r.block ∧ r.start ≤ x ∧ x < r.start + r.size

/-- Two regions are disjoint when no byte belongs to both. -/
def Region.Disjoint (r1 r2 : Region) : Prop :=
  ∀ b x, ¬(r1.contains b x ∧ r2.contains b x)

/-- Modelled from the spec: one block of the chain — "a contiguous byte
buffer of fixed capacity, an offset marking the next free byte". -/
structure Block where
  capacity : Nat
  used : Nat
deriving DecidableEq

/-- Modelled from the spec: the chained-block bump allocator.  `head` is the
block currently receiving bump allocations, `headIdx` its identity (blocks
are numbered in creation order), `old` the previously filled blocks kept
linked for eventual bulk free. -/
structure BlockChain where
  head : Block
  headIdx : Nat
  old : List Block
deriving DecidableEq

/-- Modelled from the spec: GrowthPolicy — "each subsequent growth
multiplies the previous block's size by a constant factor up to a
configurable cap, after which growth is linear at the cap size; never
produce a block smaller than the immediate request". -/
def growthPolicy (prev req : Nat) : Nat := max (min (prev * 2) GROWTH_CAP) req

/-- Modelled from the spec: `BlockChain.allocate(size, align)`.  Computes
the next bump offset in the head block rounded up to `align`; if the
request fits, advances the offset, otherwise pushes a new block sized by
the growth policy (at least `size`) and retries there. -/
def BlockChain.allocate (c : BlockChain) (size align : Nat) : BlockChain × Region :=
  if alignUp c.head.used align + size ≤ c.head.capacity then
    (⟨⟨c.head.capacity, alignUp c.head.used align + size⟩, c.headIdx, c.old⟩,
      ⟨c.headIdx, alignUp c.head.used align, size⟩)
  else
    (⟨⟨growthPolicy c.head.capacity size, alignUp 0 align + size⟩,
        c.headIdx + 1, c.head :: c.old⟩,
      ⟨c.headIdx + 1, alignUp 0 align, size⟩)

/-- Modelled from the spec: a fresh arena's chain — "an initial empty
BlockChain with a default first-block size". -/
def BlockChain.fresh : BlockChain := ⟨⟨DEFAULT_BLOCK_SIZE, 0⟩, 0, []⟩

/-- Run a sequence of `(size, align)` allocation requests, returning the
final chain and the regions in request order. -/
def BlockChain.allocList : BlockChain → List (Nat × Nat) → BlockChain × List Region
  | c, [] => (c, [])
  | c, (sz, al) :: rest =>
    (((c.allocate sz al).1.allocList rest).1,
      (c.allocate sz al).2 :: ((c.allocate sz al).1.allocList rest).2)

/-- A region is accounted for by the chain: it lives in a retired block, or
in the head block entirely below the bump cursor. -/
def BlockChain.InChain (c : BlockChain) (r : Region) : Prop :=
  r.block < c.headIdx ∨ (r.block = c.headIdx ∧ r.start + r.size ≤ c.head.used)

theorem allocate_size (c : BlockChain) (sz al : Nat) :
    (c.allocate sz al).2.size = sz := by
  by_cases hc : alignUp c.head.used al + sz ≤ c.head.capacity <;>
    simp [BlockChain.allocate, hc]

theorem allocate_align_dvd (c : BlockChain) (sz al : Nat) :
    al ∣ (c.allocate sz al).2.start := by
  by_cases hc : alignUp c.head.used al + sz ≤ c.head.capacity <;>
    simp [BlockChain.allocate, hc] <;> exact alignUp_dvd _ _

theorem allocate_inChain_mono (c : BlockChain) {r : Region} (sz : Nat) {al : Nat}
    (hal : 0 < al) (h : c.InChain r) : (c.allocate sz al).1.InChain r := by
  have hoff : c.head.used ≤ alignUp c.head.used al := le_alignUp _ hal
  by_cases hc : alignUp c.head.used al + sz ≤ c.head.capacity <;>
    simp only [BlockChain.allocate, hc, if_true, if_false, BlockChain.InChain] at h ⊢ <;>
    rcases h with h | ⟨hb, he⟩
  · exact Or.inl h
  · exact Or.inr ⟨hb, by omega⟩
  · exact Or.inl (Nat.lt_succ_of_lt h)
  · exact Or.inl (by omega)

theorem allocate_new_inChain (c : BlockChain) (sz al : Nat) :
    (c.allocate sz al).1.InChain (c.allocate sz al).2 := by
  by_cases hc : alignUp c.head.used al + sz ≤ c.head.capacity <;>
    simp [BlockChain.allocate, hc, BlockChain.InChain]

theorem allocList_inChain_mono {reqs : List (Nat × Nat)} :
    ∀ c : BlockChain, (∀ p ∈ reqs, 0 < p.2) → ∀ {r : Region}, c.InChain r →
      (c.allocList reqs).1.InChain r := by
  induction reqs with
  | nil => intro c _ r h; exact h
  | cons p rest ih =>
    intro c hal r h
    obtain ⟨sz, al⟩ := p
    have hal0 : 0 < al := (hal (sz, al) (List.mem_cons_self _ _))
    simp only [BlockChain.allocList]
    exact ih _ (fun q hq => hal q (List.mem_cons_of_mem _ hq))
      (allocate_inChain_mono c sz hal0 h)

theorem allocate_disjoint_old (c : BlockChain) {r : Region} (sz : Nat) {al : Nat}
    (hal : 0 < al) (h : c.InChain r) : Region.Disjoint r (c.allocate sz al).2 := by
  have hoff : c.head.used ≤ alignUp c.head.used al := le_alignUp _ hal
  intro b x hx
  obtain ⟨⟨hb1, hx1, hx2⟩, ⟨hb2, hy1, hy2⟩⟩ := hx
  by_cases hc : alignUp c.head.used al + sz ≤ c.head.capacity <;>
    simp only [BlockChain.allocate, hc, if_true, if_false] at hb2 hy1 hy2 <;>
    rcases h with h | ⟨hrb, hre⟩
  · -- r in a retired block, fresh region in the head block: different blocks
    omega
  · -- both in the head block: r ends at or before the cursor, the fresh region
    -- starts at or after the aligned cursor
    omega
  · -- new-block case: the fresh region is in a strictly newer block
    omega
  · omega

theorem allocList_inv (reqs : List (Nat × Nat)) :
    ∀ c : BlockChain, (∀ p ∈ reqs, 0 < p.2) →
      (∀ r ∈ (c.allocList reqs).2, (c.allocList reqs).1.InChain r) ∧
      List.Pairwise Region.Disjoint (c.allocList reqs).2 ∧
      (∀ r0, c.InChain r0 → ∀ r ∈ (c.allocList reqs).2, Region.Disjoint r0 r) := by
  induction reqs with
  | nil =>
    intro c _
    simp [BlockChain.allocList]
  | cons p rest ih =>
    intro c hal
    obtain ⟨sz, al⟩ := p
    have hal0 : 0 < al := hal (sz, al) (List.mem_cons_self _ _)
    have hrest : ∀ q ∈ rest, 0 < q.2 := fun q hq => hal q (List.mem_cons_of_mem _ hq)
    obtain ⟨ih1, ih2, ih3⟩ := ih (c.allocate sz al).1 hrest
    simp only [BlockChain.allocList]
    refine ⟨?_, ?_, ?_⟩
    · intro r hr
      rcases List.mem_cons.mp hr with rfl | hr
      · exact allocList_inChain_mono _ hrest (allocate_new_inChain c sz al)
      · exact ih1 r hr
    · exact List.pairwise_cons.mpr
        ⟨fun r hr => ih3 _ (allocate_new_inChain c sz al) r hr, ih2⟩
    · intro r0 h0 r hr
      rcases List.mem_cons.mp hr with rfl | hr
      · exact allocate_disjoint_old c sz hal0 h0
      · exact ih3 r0 (allocate_inChain_mono c sz hal0 h0) r hr

theorem allocList_sizes_aligns (reqs : List (Nat × Nat)) :
    ∀ c : BlockChain, ∀ pr ∈ reqs.zip (c.allocList reqs).2,
      pr.2.size = pr.1.1 ∧ pr.1.2 ∣ pr.2.start := by
  induction reqs with
  | nil => intro c pr hpr; simp [BlockChain.allocList] at hpr
  | cons p rest ih =>
    intro c pr hpr
    obtain ⟨sz, al⟩ := p
    simp only [BlockChain.allocList, List.zip_cons_cons] at hpr
    rcases List.mem_cons.mp hpr with rfl | hpr
    · exact ⟨allocate_size c sz al, allocate_align_dvd c sz al⟩
    · exact ih _ pr hpr

/-- C7: performing N allocations with sizes and legal alignments
`s_1..s_N` from a fresh arena returns N pairwise non-overlapping memory
regions, and each returned pointer is aligned to at least its requested
alignment (for any layout of the blocks at `UPB_MALLOC_ALIGN`-aligned base
addresses, the region's address is a multiple of the requested alignment).
A legal alignment is positive and divides `UPB_MALLOC_ALIGN` — in Rust,
alignments are powers of two, so these are exactly the alignments not
exceeding the supported ceiling. -/
theorem fresh_allocations_pairwise_disjoint_aligned
    (reqs : List (Nat × Nat)) (base : Nat → Nat)
    (hreq : ∀ p ∈ reqs, 0 < p.2 ∧ p.2 ∣ UPB_MALLOC_ALIGN)
    (hbase : ∀ b, UPB_MALLOC_ALIGN ∣ base b) :
    List.Pairwise Region.Disjoint (BlockChain.fresh.allocList reqs).2 ∧
    ∀ pr ∈ reqs.zip (BlockChain.fresh.allocList reqs).2,
      pr.1.2 ∣ Region.addr base pr.2 := by
  refine ⟨(allocList_inv reqs BlockChain.fresh (fun p hp => (hreq p hp).1)).2.1, ?_⟩
  intro pr hpr
  have hmem : pr.1 ∈ reqs := (List.of_mem_zip hpr).1
  have hdvd : pr.1.2 ∣ pr.2.start :=
    (allocList_sizes_aligns reqs BlockChain.fresh pr hpr).2
  have hbd : pr.1.2 ∣ base pr.2.block :=
    dvd_trans (hreq pr.1 hmem).2 (hbase pr.2.block)
  exact Nat.dvd_add hbd hdvd

/-- Witness for C7 at the spec's own scenario: allocate 10 bytes at
alignment 8, then 1000 bytes at alignment 16 (forcing growth), from a
fresh arena; the two regions are disjoint. -/
theorem fresh_allocations_pairwise_disjoint_aligned_witness :
    List.Pairwise Region.Disjoint
      (BlockChain.fresh.allocList [(10, 8), (1000, 16)]).2 :=
  (fresh_allocations_pairwise_disjoint_aligned [(10, 8), (1000, 16)]
    (fun b => UPB_MALLOC_ALIGN * b) (by decide)
    (fun b => dvd_mul_right _ _)).1


/-- Write the bytes `bs` into memory `m` starting at offset `off` of block
`blk` (the model of `ptr::copy_nonoverlapping` / `MaybeUninit.write`). -/
def writeBytes (m : Nat × Nat → Nat) (blk off : Nat) : List Nat → (Nat × Nat → Nat)
  | [] => m
  | b :: bs => writeBytes (fun p => if p = (blk, off) then b else m p) blk (off + 1) bs

/-- Read `n` bytes from memory `m` starting at offset `off` of block `blk`
(the model of dereferencing the returned slice). -/
def readBytes (m : Nat × Nat → Nat) (blk off : Nat) : Nat → List Nat
  | 0 => []
  | n + 1 => m (blk, off) :: readBytes m blk (off + 1) n

theorem writeBytes_lower (bs : List Nat) :
    ∀ (m : Nat × Nat → Nat) (blk off : Nat) (p : Nat × Nat),
      (p.1 ≠ blk ∨ p.2 < off) → writeBytes m blk off bs p = m p := by
  induction bs with
  | nil => intro m blk off p _; rfl
  | cons b bs ih =>
    intro m blk off p hp
    simp only [writeBytes]
    rw [ih]
    · have hne : p ≠ (blk, off) := by
        intro h
        rcases hp with h1 | h1 <;> simp [h] at h1
      simp [hne]
    · omega

theorem readBytes_writeBytes (bs : List Nat) :
    ∀ (m : Nat × Nat → Nat) (blk off : Nat),
      readBytes (writeBytes m blk off bs) blk off bs.length = bs := by
  induction bs with
  | nil => intro m blk off; rfl
  | cons b bs ih =>
    intro m blk off
    simp only [writeBytes, List.length_cons, readBytes]
    rw [List.cons.injEq]
    constructor
    · rw [writeBytes_lower bs _ blk (off + 1) (blk, off) (by omega)]
      simp
    · exact ih _ blk (off + 1)

/-- The raw, UPB-managed arena handle (`RawArena` from `sys::arena`). -/
abbrev RawArena := Nat

/-- The Rust `Arena` struct of the wrapper: it holds the raw arena
handle; the `PhantomData` marker field has no runtime content.  The
projection `Arena.raw` is the wrapper's `fn raw(&self) -> RawArena`,
which returns `self.raw`. -/
structure Arena where
  raw : RawArena
deriving DecidableEq

/-- `Arena::from_raw(raw_arena)`: wraps an externally created raw handle. -/
def Arena.from_raw (raw_arena : RawArena) : Arena := ⟨raw_arena⟩

/-- The state of the arena an `Arena` handle points to: its block chain
plus the bytes stored in its blocks. -/
structure ArenaMem where
  chain : BlockChain
  mem : Nat × Nat → Nat

/-- The state behind a freshly created arena (uninitialized byte contents
are arbitrary; zero here). -/
def ArenaMem.fresh : ArenaMem := ⟨BlockChain.fresh, fun _ => 0⟩

/-- The bytes of region `r` as read through a reference into the arena. -/
def ArenaMem.readRegion (st : ArenaMem) (r : Region) : List Nat :=
  readBytes st.mem r.block r.start r.size

/-- Modelled from the spec: `upb_Arena_Malloc(raw, size)` (not in the
sources).  Serves the request from the block chain; the returned pointer
"is dereferencable for `size` bytes and has an alignment of
`UPB_MALLOC_ALIGN` until the arena is destroyed". -/
def upb_Arena_Malloc (st : ArenaMem) (size : Nat) : ArenaMem × Region :=
  (⟨(st.chain.allocate size UPB_MALLOC_ALIGN).1, st.mem⟩,
    (st.chain.allocate size UPB_MALLOC_ALIGN).2)

/-- `Arena::alloc(&self, layout)` with `layout = (size, align)`.  `debug`
is the build mode (`cfg(debug_assertions)`, governing `debug_assert!`);
`oomFail` says whether the underlying system allocation fails, in which
case `upb_Arena_Malloc` returns null and `alloc::handle_alloc_error`
terminates the process.  A `none` result models no return to the caller
(assertion failure or fatal allocation error). -/
def Arena.alloc (debug oomFail : Bool) (st : ArenaMem) (size align : Nat) :
    Option (ArenaMem × Region) :=
  if debug = true ∧ UPB_MALLOC_ALIGN < align then none
  else if oomFail = true then none
  else some (upb_Arena_Malloc st size)

/-- `Arena::checked_alloc`: same as `alloc` but `assert!`s — in every
build mode — that `layout.align() <= UPB_MALLOC_ALIGN`, panicking
otherwise. -/
def Arena.checked_alloc (debug oomFail : Bool) (st : ArenaMem) (size align : Nat) :
    Option (ArenaMem × Region) :=
  if UPB_MALLOC_ALIGN < align then none
  else Arena.alloc debug oomFail st size align

/-- `Arena::copy_in(&self, data)`: a `T: Copy` value is represented by its
byte image `bs` (`size_of::<T>()` bytes) and its alignment
`align = align_of::<T>()`; `Layout::for_value` yields `(bs.length, align)`,
`checked_alloc` allocates, and the value's bytes are written into the
fresh region (`MaybeUninit::write` of the copied value). -/
def Arena.copy_in (debug oomFail : Bool) (st : ArenaMem) (bs : List Nat)
    (align : Nat) : Option (ArenaMem × Region) :=
  match Arena.checked_alloc debug oomFail st bs.length align with
  | none => none
  | some (st1, r) => some (⟨st1.chain, writeBytes st1.mem r.block r.start bs⟩, r)

/-- `Arena::copy_slice_in(&self, data)` at element type `u8` (the
`copy_bytes` instantiation): `Layout::for_value` of a `[u8]` of length
`n` is `(n, 1)`; the bytes are `ptr::copy_nonoverlapping`-ed into the
fresh region and a slice of length `n` over it is returned. -/
def Arena.copy_slice_in (debug oomFail : Bool) (st : ArenaMem) (data : List Nat) :
    Option (ArenaMem × Region) :=
  match Arena.checked_alloc debug oomFail st data.length 1 with
  | none => none
  | some (st1, r) => some (⟨st1.chain, writeBytes st1.mem r.block r.start data⟩, r)

/-- `Arena::copy_str_in(&self, s)`: copies `s.as_bytes()` with
`copy_slice_in` and reinterprets the copied bytes as a `&str`
(`from_utf8_unchecked` — a pure reinterpretation, sound because the copy
is bitwise).  A string value is represented by its UTF-8 bytes. -/
def Arena.copy_str_in (debug oomFail : Bool) (st : ArenaMem) (s : List Nat) :
    Option (ArenaMem × Region) :=
  Arena.copy_slice_in debug oomFail st s

theorem checked_alloc_eq (debug : Bool) (st : ArenaMem) (size align : Nat)
    (h : align ≤ UPB_MALLOC_ALIGN) :
    Arena.checked_alloc debug false st size align = some (upb_Arena_Malloc st size) := by
  have h1 : ¬(UPB_MALLOC_ALIGN < align) := not_lt.mpr h
  unfold Arena.checked_alloc Arena.alloc
  simp [h1]

/-- C4: for every requested size and every alignment within the supported
ceiling, whenever the allocation entry points (`alloc` or `checked_alloc`)
return to the caller they return a byte region whose length is exactly
`size` bytes (the wrapper builds the slice with
`slice::from_raw_parts_mut(ptr, layout.size())`). -/
theorem checked_alloc_exact_len (debug oomFail : Bool) (st : ArenaMem)
    (size align : Nat) (st' : ArenaMem) (r : Region)
    (h : Arena.checked_alloc debug oomFail st size align = some (st', r) ∨
      Arena.alloc debug oomFail st size align = some (st', r)) :
    r.size = size := by
  have halloc : ∀ st2 : ArenaMem, ∀ r2 : Region,
      Arena.alloc debug oomFail st size align = some (st2, r2) →
      r2.size = size := by
    intro st2 r2 h2
    unfold Arena.alloc upb_Arena_Malloc at h2
    split at h2
    · simp at h2
    · split at h2
      · simp at h2
      · simp only [Option.some.injEq, Prod.mk.injEq] at h2
        rw [← h2.2]
        exact allocate_size st.chain size UPB_MALLOC_ALIGN
  rcases h with h | h
  · unfold Arena.checked_alloc at h
    split at h
    · simp at h
    · exact halloc st' r h
  · exact halloc st' r h

/-- Witness for C4: a 5-byte allocation at alignment 8 from a fresh arena
returns the region of size exactly 5. -/
theorem checked_alloc_exact_len_witness : (⟨0, 0, 5⟩ : Region).size = 5 :=
  checked_alloc_exact_len false false ArenaMem.fresh 5 8
    ⟨⟨⟨DEFAULT_BLOCK_SIZE, 5⟩, 0, []⟩, fun _ => 0⟩ ⟨0, 0, 5⟩ (Or.inl rfl)

/-- C5: a single allocation call is all-or-nothing.  `Arena::alloc`
either returns no value at all — the process halts on a failed debug
assertion, or fatally in `handle_alloc_error` when the underlying system
allocation is exhausted (second conjunct); there is no error value and no
partial state handed back — or it fully succeeds with a region of exactly
the requested size at a `UPB_MALLOC_ALIGN`-aligned offset. -/
theorem alloc_all_or_nothing (debug oomFail : Bool) (st : ArenaMem)
    (size align : Nat) :
    (Arena.alloc debug oomFail st size align = none ∨
      ∃ st' r, Arena.alloc debug oomFail st size align = some (st', r) ∧
        r.size = size ∧ UPB_MALLOC_ALIGN ∣ r.start) ∧
    Arena.alloc debug true st size align = none := by
  constructor
  · unfold Arena.alloc
    split
    · exact Or.inl rfl
    · split
      · exact Or.inl rfl
      · exact Or.inr ⟨_, _, rfl,
          allocate_size st.chain size UPB_MALLOC_ALIGN,
          allocate_align_dvd st.chain size UPB_MALLOC_ALIGN⟩
  · unfold Arena.alloc
    split
    · rfl
    · simp

/-- C6: for every layout whose alignment exceeds `UPB_MALLOC_ALIGN`,
`checked_alloc` asserts and aborts in every build mode (any `debug`, any
`oomFail`), while the explicitly-unsafe `alloc` leaves the precondition
unchecked in optimized builds (`debug = false`): there it proceeds and
returns the allocation. -/
theorem checked_alloc_always_asserts (debug oomFail : Bool) (st : ArenaMem)
    (size align : Nat) (h : UPB_MALLOC_ALIGN < align) :
    Arena.checked_alloc debug oomFail st size align = none ∧
    Arena.alloc true oomFail st size align = none ∧
    Arena.alloc false false st size align = some (upb_Arena_Malloc st size) := by
  refine ⟨?_, ?_, ?_⟩
  · unfold Arena.checked_alloc
    simp [h]
  · unfold Arena.alloc
    rw [if_pos ⟨rfl, h⟩]
  · unfold Arena.alloc
    simp

/-- Witness for C6 at alignment 32: the checked entry point panics even
with debug assertions off, the unsafe one proceeds. -/
theorem checked_alloc_always_asserts_witness :
    UPB_MALLOC_ALIGN < 32 ∧
      (Arena.checked_alloc false true ArenaMem.fresh 4 32 = none ∧
        Arena.alloc true true ArenaMem.fresh 4 32 = none ∧
        Arena.alloc false false ArenaMem.fresh 4 32 =
          some (upb_Arena_Malloc ArenaMem.fresh 4)) :=
  ⟨by decide, checked_alloc_always_asserts false true ArenaMem.fresh 4 32 (by decide)⟩

/-- C1: for a value `v` of a trivially copyable type `T` — represented by
its `size_of::<T>()` bytes `bs` and alignment `align_of::<T>() = align ≤
MAX_SUPPORTED_ALIGN` — `copy_in` returns a reference into arena memory
whose pointee is bit-for-bit equal to `v`: reading the returned region
back yields exactly `bs`. -/
theorem copy_in_bit_for_bit (debug : Bool) (st : ArenaMem) (bs : List Nat)
    (align : Nat) (h : align ≤ UPB_MALLOC_ALIGN) :
    ∃ st' r, Arena.copy_in debug false st bs align = some (st', r) ∧
      st'.readRegion r = bs := by
  unfold Arena.copy_in
  rw [checked_alloc_eq debug st bs.length align h]
  refine ⟨_, _, rfl, ?_⟩
  unfold ArenaMem.readRegion
  rw [allocate_size]
  exact readBytes_writeBytes bs st.mem _ _

/-- Witness for C1: copying the 4-byte value `[222, 173, 190, 239]` at
alignment 4 into a fresh arena and reading it back. -/
theorem copy_in_bit_for_bit_witness :
    (4 : Nat) ≤ UPB_MALLOC_ALIGN ∧
      ∃ st' r,
        Arena.copy_in false false ArenaMem.fresh [222, 173, 190, 239] 4 =
          some (st', r) ∧
        st'.readRegion r = [222, 173, 190, 239] :=
  ⟨by decide,
    copy_in_bit_for_bit false ArenaMem.fresh [222, 173, 190, 239] 4 (by decide)⟩

/-- C2: `copy_slice_in` on a byte sequence returns a sequence of the same
length with identical contents in identical order (the returned slice has
length `data.length` and reads back equal to `data`), and `copy_str_in`
round-trips a string — represented by its UTF-8 bytes — unchanged. -/
theorem copy_slice_in_and_copy_str_in_roundtrip (debug : Bool) (st : ArenaMem)
    (data : List Nat) :
    (∃ st' r, Arena.copy_slice_in debug false st data = some (st', r) ∧
      r.size = data.length ∧ st'.readRegion r = data) ∧
    (∃ st2 r2, Arena.copy_str_in debug false st data = some (st2, r2) ∧
      st2.readRegion r2 = data) := by
  have hmain : ∃ st' r, Arena.copy_slice_in debug false st data = some (st', r) ∧
      r.size = data.length ∧ st'.readRegion r = data := by
    unfold Arena.copy_slice_in
    rw [checked_alloc_eq debug st data.length 1 (by decide)]
    refine ⟨_, _, rfl, ?_, ?_⟩
    · exact allocate_size st.chain data.length UPB_MALLOC_ALIGN
    · unfold ArenaMem.readRegion
      rw [allocate_size]
      exact readBytes_writeBytes data st.mem _ _
  refine ⟨hmain, ?_⟩
  obtain ⟨st', r, h1, _, h3⟩ := hmain
  exact ⟨st', r, by unfold Arena.copy_str_in; exact h1, h3⟩

/-- A call to `Arena::raw(&self)` as a step on the pair (handle, arena
state): it returns `self.raw` and hands back the receiver and the arena
state it found. -/
def Arena.rawCall (a : Arena) (st : ArenaMem) : RawArena × Arena × ArenaMem :=
  (a.raw, a, st)

/-- C10: `Arena::from_raw(r).raw()` returns exactly `r`; and `raw` is a
pure observer — any number of calls return the same handle and leave the
arena unchanged, so subsequent `alloc`/`copy_in` behaviour is
unaffected. -/
theorem from_raw_raw_roundtrip (r : RawArena) (a : Arena) (st : ArenaMem)
    (debug oomFail : Bool) (size align : Nat) (bs : List Nat) :
    (Arena.from_raw r).raw = r ∧
    Arena.rawCall a st = (a.raw, a, st) ∧
    (Arena.rawCall a (Arena.rawCall a st).2.2).1 = (Arena.rawCall a st).1 ∧
    Arena.alloc debug oomFail (Arena.rawCall a st).2.2 size align =
      Arena.alloc debug oomFail st size align ∧
    Arena.copy_in debug oomFail (Arena.rawCall a st).2.2 bs align =
      Arena.copy_in debug oomFail st bs align :=
  ⟨rfl, rfl, rfl, rfl, rfl⟩

/-- Modelled from the spec: `FuseError` — the failure taxonomy of fusion;
"`FuseError::FixedBuffer`: fusing a non-growable arena". -/
inductive FuseError
  | FixedBuffer
deriving DecidableEq

/-- Modelled from the spec: the lifetime bookkeeping the fuse machinery
keeps for one arena — the group its find-root currently resolves to,
whether it has not yet been dropped, and whether it is a FixedArena
(backed by a caller-supplied initial block, hence ineligible for
fusion). -/
structure ArenaInfo where
  group : Nat
  live : Bool
  fixedBuf : Bool
deriving DecidableEq

/-- The live-member predicate for group `g`: the arena has not been
dropped and its find-root resolves to `g`. -/
def liveIn (g : Nat) (e : ArenaInfo) : Bool := e.live && e.group == g

/-- Re-rooting the members of group `gb` onto `ga` (the effect of the
union step on find-roots). -/
def relabel (ga gb : Nat) (e : ArenaInfo) : ArenaInfo :=
  if e.group = gb then ⟨ga, e.live, e.fixedBuf⟩ else e

/-- Modelled from the spec: the shared state of the fuse machinery over
all arenas.  Arenas are numbered by creation order (index into `arenas`);
`counts g` is the live-member counter held at the root of group `g`;
`freed` records, newest first, every group whose combined memory has been
released; `nextGroup` is the next fresh singleton-group identity. -/
structure Sys where
  arenas : List ArenaInfo
  counts : Nat → Nat
  freed : List Nat
  nextGroup : Nat

/-- The empty system: no arenas, every counter zero, nothing freed. -/
def Sys.init : Sys := ⟨[], fun _ => 0, [], 0⟩

/-- Modelled from the spec: arena creation (`upb_Arena_New`, or the
fixed-initial-block constructor when `fixed`) — "allocates a fresh
singleton FuseGroup (count = 1)". -/
def Sys.newImpl (s : Sys) (fixed : Bool) : Sys :=
  { arenas := s.arenas ++ [⟨s.nextGroup, true, fixed⟩],
    counts := fun g => if g = s.nextGroup then 1 else s.counts g,
    freed := s.freed,
    nextGroup := s.nextGroup + 1 }

/-- Modelled from the spec: `upb_Arena_Fuse(a, b) -> bool` (not in the
sources).  Returns `false` — refusing the merge, with no state change —
when either arena is backed by a caller-supplied initial block.  If both
arenas resolve to the same group root the call is a success no-op;
otherwise the two groups are merged (every member of `b`'s group is
re-rooted onto `a`'s) and the merged root's live-count becomes the sum of
the two roots' counts.  Fusing a dropped arena cannot be expressed through
the Rust API (a `&Arena` witnesses liveness) and is modelled as a success
no-op. -/
def Sys.fuseImpl (s : Sys) (a b : Nat) : Sys × Bool :=
  match s.arenas.get? a, s.arenas.get? b with
  | some ia, some ib =>
    if ia.fixedBuf = true ∨ ib.fixedBuf = true then (s, false)
    else if ia.live = false ∨ ib.live = false then (s, true)
    else if ia.group = ib.group then (s, true)
    else
      ({ arenas := s.arenas.map (relabel ia.group ib.group),
          counts := fun g =>
            if g = ia.group then s.counts ia.group + s.counts ib.group
            else if g = ib.group then 0
            else s.counts g,
          freed := s.freed,
          nextGroup := s.nextGroup }, true)
  | _, _ => (s, false)

/-- Modelled from the spec: the drop/teardown path (`upb_Arena_Free`
through `impl Drop for Arena`) — "decrements the arena's FuseGroup
live-count; if it reaches zero, releases every Block reachable from every
BlockChain that was ever part of the group" (recorded by appending the
group to `freed`). -/
def Sys.dropImpl (s : Sys) (i : Nat) : Sys :=
  match s.arenas.get? i with
  | some ia =>
    if ia.live = true then
      { arenas := s.arenas.set i ⟨ia.group, false, ia.fixedBuf⟩,
        counts := fun g => if g = ia.group then s.counts ia.group - 1 else s.counts g,
        freed := if s.counts ia.group - 1 = 0 then ia.group :: s.freed else s.freed,
        nextGroup := s.nextGroup }
    else s
  | none => s

/-- The spec-facing result of `fuse(a, b)`: `Except FuseError Unit`
view of `upb_Arena_Fuse`'s boolean. -/
def Sys.fuse (s : Sys) (a b : Nat) : Sys × Except FuseError Unit :=
  match s.fuseImpl a b with
  | (s', true) => (s', Except.ok ())
  | (s', false) => (s', Except.error FuseError.FixedBuffer)

/-- `Arena::fuse(&self, other)` from the wrapper: calls `upb_Arena_Fuse`
and panics (`none`: no return to the caller) when it reports failure. -/
def Arena.fuse (s : Sys) (a b : Nat) : Option Sys :=
  match s.fuseImpl a b with
  | (s', true) => some s'
  | (_, false) => none

/-- The externally triggerable lifecycle events. -/
inductive ArenaOp
  | newArena : Bool → ArenaOp
  | fuseOp : Nat → Nat → ArenaOp
  | dropOp : Nat → ArenaOp

/-- One lifecycle event (the state part; fuse results are observed through
`Sys.fuseImpl` directly). -/
def Sys.step (s : Sys) : ArenaOp → Sys
  | .newArena fx => s.newImpl fx
  | .fuseOp a b => (s.fuseImpl a b).1
  | .dropOp i => s.dropImpl i

/-- Run events from a given state. -/
def Sys.runFrom (s : Sys) (ops : List ArenaOp) : Sys := ops.foldl Sys.step s

/-- Run events from the empty system. -/
def Sys.run (ops : List ArenaOp) : Sys := Sys.runFrom Sys.init ops

/-- The number of not-yet-dropped arenas whose find-root resolves to
group `g`. -/
def Sys.liveCount (s : Sys) (g : Nat) : Nat :=
  s.arenas.countP (liveIn g)

/-- The group arena `i` currently belongs to. -/
def Sys.groupOf (s : Sys) (i : Nat) : Nat :=
  ((s.arenas.get? i).map ArenaInfo.group).getD 0

/-- The lifetime invariant: group identities are in range, every group's
counter equals its number of live members, freed groups have no live
members, no group is freed twice, and freed groups are in range. -/
def Sys.Inv (s : Sys) : Prop :=
  (∀ e ∈ s.arenas, e.group < s.nextGroup) ∧
  (∀ g, s.counts g = s.liveCount g) ∧
  (∀ g ∈ s.freed, s.counts g = 0) ∧
  s.freed.Nodup ∧
  (∀ g ∈ s.freed, g < s.nextGroup)

theorem countP_set_balance {α : Type} (p : α → Bool) :
    ∀ (l : List α) (i : Nat) (x y : α), l.get? i = some x →
      (l.set i y).countP p + (if p x then 1 else 0)
        = l.countP p + (if p y then 1 else 0) := by
  intro l
  induction l with
  | nil => intro i x y h; simp at h
  | cons a t ih =>
    intro i x y h
    cases i with
    | zero =>
      simp only [List.get?] at h
      injection h with h
      subst h
      simp only [List.set, List.countP_cons]
      omega
    | succ n =>
      simp only [List.get?] at h
      simp only [List.set, List.countP_cons]
      have := ih n x y h
      omega

theorem countP_relabel_target (ga gb : Nat) (hne : ga ≠ gb) :
    ∀ l : List ArenaInfo,
      (l.map (relabel ga gb)).countP (liveIn ga)
        = l.countP (liveIn ga) + l.countP (liveIn gb) := by
  intro l
  induction l with
  | nil => rfl
  | cons e t ih =>
    simp only [List.map_cons, List.countP_cons, ih]
    by_cases hg : e.group = gb
    · simp [relabel, liveIn, hg, Ne.symm hne]
      cases e.live
      · simp
      · simp
        omega
    · simp [relabel, liveIn, hg]
      omega

theorem countP_relabel_source (ga gb : Nat) (hne : ga ≠ gb) :
    ∀ l : List ArenaInfo,
      (l.map (relabel ga gb)).countP (liveIn gb) = 0 := by
  intro l
  induction l with
  | nil => rfl
  | cons e t ih =>
    simp only [List.map_cons, List.countP_cons, ih]
    by_cases hg : e.group = gb
    · simp [relabel, liveIn, hg, hne]
    · simp [relabel, liveIn, hg]

theorem countP_relabel_other (ga gb g : Nat) (hga : g ≠ ga) (hgb : g ≠ gb) :
    ∀ l : List ArenaInfo,
      (l.map (relabel ga gb)).countP (liveIn g) = l.countP (liveIn g) := by
  intro l
  induction l with
  | nil => rfl
  | cons e t ih =>
    simp only [List.map_cons, List.countP_cons, ih]
    by_cases hg : e.group = gb
    · simp [relabel, liveIn, hg, Ne.symm hga, Ne.symm hgb]
    · simp [relabel, liveIn, hg]

theorem liveCount_eq_countP (s : Sys) (g : Nat) :
    s.liveCount g = s.arenas.countP (liveIn g) := rfl

theorem inv_init : Sys.init.Inv := by
  refine ⟨?_, ?_, ?_, ?_, ?_⟩ <;> simp [Sys.init, Sys.liveCount, List.Nodup]

theorem inv_new {s : Sys} (h : s.Inv) (fx : Bool) : (s.newImpl fx).Inv := by
  obtain ⟨h1, h2, h3, h4, h5⟩ := h
  refine ⟨?_, ?_, ?_, h4, ?_⟩
  · intro e he
    simp only [Sys.newImpl] at he ⊢
    rcases List.mem_append.mp he with he | he
    · exact Nat.lt_succ_of_lt (h1 e he)
    · simp only [List.mem_singleton] at he
      subst he
      exact Nat.lt_succ_self _
  · intro g
    simp only [Sys.newImpl, Sys.liveCount, List.countP_append, List.countP_cons,
      List.countP_nil]
    by_cases hg : g = s.nextGroup
    · subst hg
      rw [if_pos rfl]
      have hz : List.countP (liveIn s.nextGroup) s.arenas = 0 := by
        refine List.countP_eq_zero.mpr ?_
        intro e he
        have := h1 e he
        simp [liveIn]
        intro _
        omega
      rw [hz]
      simp [liveIn]
    · rw [if_neg hg]
      have hne : (s.nextGroup == g) = false := by
        simp
        omega
      simp [liveIn, hne]
      exact h2 g
  · intro g hg
    simp only [Sys.newImpl] at hg ⊢
    have hlt : g < s.nextGroup := h5 g hg
    rw [if_neg (by omega)]
    exact h3 g hg
  · intro g hg
    simp only [Sys.newImpl] at hg ⊢
    exact Nat.lt_succ_of_lt (h5 g hg)

theorem inv_fuse {s : Sys} (h : s.Inv) (a b : Nat) : ((s.fuseImpl a b).1).Inv := by
  obtain ⟨h1, h2, h3, h4, h5⟩ := h
  unfold Sys.fuseImpl
  cases ha : s.arenas.get? a with
  | none => exact ⟨h1, h2, h3, h4, h5⟩
  | some ia =>
    cases hb : s.arenas.get? b with
    | none => exact ⟨h1, h2, h3, h4, h5⟩
    | some ib =>
      dsimp only
      by_cases hfx : ia.fixedBuf = true ∨ ib.fixedBuf = true
      · rw [if_pos hfx]
        exact ⟨h1, h2, h3, h4, h5⟩
      · rw [if_neg hfx]
        by_cases hlv : ia.live = false ∨ ib.live = false
        · rw [if_pos hlv]
          exact ⟨h1, h2, h3, h4, h5⟩
        · rw [if_neg hlv]
          by_cases hgg : ia.group = ib.group
          · rw [if_pos hgg]
            exact ⟨h1, h2, h3, h4, h5⟩
          · rw [if_neg hgg]
            push_neg at hlv
            obtain ⟨hl1, hl2⟩ := hlv
            have hlva : ia.live = true := by
              cases hv : ia.live
              · exact absurd hv hl1
              · rfl
            have hlvb : ib.live = true := by
              cases hv : ib.live
              · exact absurd hv hl2
              · rfl
            have hia : ia ∈ s.arenas := List.get?_mem ha
            have hib : ib ∈ s.arenas := List.get?_mem hb
            have hcga : 0 < s.counts ia.group := by
              rw [h2]
              exact List.countP_pos_iff.mpr ⟨ia, hia, by simp [liveIn, hlva]⟩
            have hcgb : 0 < s.counts ib.group := by
              rw [h2]
              exact List.countP_pos_iff.mpr ⟨ib, hib, by simp [liveIn, hlvb]⟩
            refine ⟨?_, ?_, ?_, h4, h5⟩
            · intro e he
              simp only at he
              obtain ⟨e0, he0, rfl⟩ := List.mem_map.mp he
              unfold relabel
              split
              · exact h1 ia hia
              · exact h1 e0 he0
            · intro g
              show (if g = ia.group then s.counts ia.group + s.counts ib.group
                  else if g = ib.group then 0 else s.counts g)
                = List.countP (liveIn g) (s.arenas.map (relabel ia.group ib.group))
              by_cases hga' : g = ia.group
              · subst hga'
                rw [if_pos rfl, countP_relabel_target ia.group ib.group hgg,
                  h2 ia.group, h2 ib.group]
                rfl
              · rw [if_neg hga']
                by_cases hgb' : g = ib.group
                · subst hgb'
                  rw [if_pos rfl, countP_relabel_source ia.group ib.group hgg]
                · rw [if_neg hgb',
                    countP_relabel_other ia.group ib.group g hga' hgb']
                  exact h2 g
            · intro g hg
              show (if g = ia.group then s.counts ia.group + s.counts ib.group
                  else if g = ib.group then 0 else s.counts g) = 0
              have hzg : s.counts g = 0 := h3 g hg
              have hne1 : g ≠ ia.group := by
                intro hEq
                rw [hEq] at hzg
                omega
              have hne2 : g ≠ ib.group := by
                intro hEq
                rw [hEq] at hzg
                omega
              rw [if_neg hne1, if_neg hne2]
              exact hzg

theorem inv_drop {s : Sys} (h : s.Inv) (i : Nat) : (s.dropImpl i).Inv := by
  obtain ⟨h1, h2, h3, h4, h5⟩ := h
  unfold Sys.dropImpl
  cases hi : s.arenas.get? i with
  | none => exact ⟨h1, h2, h3, h4, h5⟩
  | some ia =>
    dsimp only
    by_cases hl : ia.live = true
    · rw [if_pos hl]
      have hia : ia ∈ s.arenas := List.get?_mem hi
      have hcg : 0 < s.counts ia.group := by
        rw [h2]
        exact List.countP_pos_iff.mpr ⟨ia, hia, by simp [liveIn, hl]⟩
      have hnf : ia.group ∉ s.freed := by
        intro hf
        have := h3 _ hf
        omega
      have hbal : ∀ g,
          (s.arenas.set i ⟨ia.group, false, ia.fixedBuf⟩).countP (liveIn g)
            + (if liveIn g ia = true then 1 else 0)
          = s.arenas.countP (liveIn g)
            + (if liveIn g ⟨ia.group, false, ia.fixedBuf⟩ = true then 1 else 0) :=
        fun g => countP_set_balance (liveIn g) s.arenas i ia
          ⟨ia.group, false, ia.fixedBuf⟩ hi
      refine ⟨?_, ?_, ?_, ?_, ?_⟩
      · intro e he
        simp only at he
        rcases List.mem_or_eq_of_mem_set he with he | he
        · exact h1 e he
        · subst he
          exact h1 ia hia
      · intro g
        show (if g = ia.group then s.counts ia.group - 1 else s.counts g)
          = (s.arenas.set i ⟨ia.group, false, ia.fixedBuf⟩).countP (liveIn g)
        have hb := hbal g
        have h2g : s.counts g = List.countP (liveIn g) s.arenas := h2 g
        by_cases hg : g = ia.group
        · subst hg
          rw [if_pos rfl]
          have ht : liveIn ia.group ia = true := by simp [liveIn, hl]
          have hf : liveIn ia.group (⟨ia.group, false, ia.fixedBuf⟩ : ArenaInfo)
              = false := by simp [liveIn]
          rw [ht, hf] at hb
          simp at hb
          omega
        · rw [if_neg hg]
          have hgne : (ia.group == g) = false := by
            simp
            omega
          have ht : liveIn g ia = false := by simp [liveIn, hgne]
          have hf : liveIn g (⟨ia.group, false, ia.fixedBuf⟩ : ArenaInfo)
              = false := by simp [liveIn]
          rw [ht, hf] at hb
          simp at hb
          omega
      · intro g hg
        show (if g = ia.group then s.counts ia.group - 1 else s.counts g) = 0
        by_cases hz : s.counts ia.group - 1 = 0
        · rw [if_pos hz] at hg
          rcases List.mem_cons.mp hg with hg | hg
          · subst hg
            rw [if_pos rfl]
            exact hz
          · have hne : g ≠ ia.group := by
              intro hEq
              subst hEq
              exact hnf hg
            rw [if_neg hne]
            exact h3 g hg
        · rw [if_neg hz] at hg
          have hne : g ≠ ia.group := by
            intro hEq
            subst hEq
            exact hnf hg
          rw [if_neg hne]
          exact h3 g hg
      · show (if s.counts ia.group - 1 = 0 then ia.group :: s.freed else s.freed).Nodup
        by_cases hz : s.counts ia.group - 1 = 0
        · rw [if_pos hz]
          exact List.nodup_cons.mpr ⟨hnf, h4⟩
        · rw [if_neg hz]
          exact h4
      · intro g hg
        show g < s.nextGroup
        by_cases hz : s.counts ia.group - 1 = 0
        · rw [if_pos hz] at hg
          rcases List.mem_cons.mp hg with hg | hg
          · subst hg
            exact h1 ia hia
          · exact h5 g hg
        · rw [if_neg hz] at hg
          exact h5 g hg
    · rw [if_neg hl]
      exact ⟨h1, h2, h3, h4, h5⟩

theorem inv_step {s : Sys} (h : s.Inv) (op : ArenaOp) : (s.step op).Inv := by
  cases op with
  | newArena fx => exact inv_new h fx
  | fuseOp a b => exact inv_fuse h a b
  | dropOp i => exact inv_drop h i

theorem inv_runFrom {s : Sys} (h : s.Inv) (ops : List ArenaOp) :
    (s.runFrom ops).Inv := by
  induction ops generalizing s with
  | nil => exact h
  | cons op rest ih => exact ih (inv_step h op)

theorem inv_run (ops : List ArenaOp) : (Sys.run ops).Inv :=
  inv_runFrom inv_init ops

/-- C3: fusing when either arena is a FixedArena (backed by a
caller-supplied initial block) fails — `upb_Arena_Fuse` reports failure,
the spec-level result is `FuseError::FixedBuffer`, and the wrapper
`Arena::fuse` panics — and performs no merge: the system state is
returned unchanged, so in particular both arenas' group membership is
unchanged. -/
theorem fuse_fixed_buffer_fails (s : Sys) (a b : Nat) (ia ib : ArenaInfo)
    (ha : s.arenas.get? a = some ia) (hb : s.arenas.get? b = some ib)
    (hfx : ia.fixedBuf = true ∨ ib.fixedBuf = true) :
    Sys.fuse s a b = (s, Except.error FuseError.FixedBuffer) ∧
    Arena.fuse s a b = none ∧
    (Sys.fuse s a b).1.groupOf a = s.groupOf a ∧
    (Sys.fuse s a b).1.groupOf b = s.groupOf b := by
  have himpl : s.fuseImpl a b = (s, false) := by
    unfold Sys.fuseImpl
    rw [ha, hb]
    dsimp only
    rw [if_pos hfx]
  refine ⟨?_, ?_, ?_, ?_⟩
  · unfold Sys.fuse
    rw [himpl]
  · unfold Arena.fuse
    rw [himpl]
  · unfold Sys.fuse
    rw [himpl]
  · unfold Sys.fuse
    rw [himpl]

/-- Witness for C3: arena 1 is a FixedArena, so the wrapper's fuse of
arenas 0 and 1 panics. -/
theorem fuse_fixed_buffer_fails_witness :
    Arena.fuse (Sys.run [ArenaOp.newArena false, ArenaOp.newArena true]) 0 1
      = none :=
  (fuse_fixed_buffer_fails
    (Sys.run [ArenaOp.newArena false, ArenaOp.newArena true]) 0 1
    ⟨0, true, false⟩ ⟨1, true, true⟩ (by decide) (by decide) (Or.inr rfl)).2.1

theorem fuseImpl_freed (s : Sys) (a b : Nat) :
    ((s.fuseImpl a b).1).freed = s.freed := by
  unfold Sys.fuseImpl
  cases s.arenas.get? a with
  | none => rfl
  | some ia =>
    cases s.arenas.get? b with
    | none => rfl
    | some ib =>
      dsimp only
      split
      · rfl
      · split
        · rfl
        · split
          · rfl
          · rfl

/-- C8: in every reachable state, every fuse group's live-member counter
equals the number of not-yet-dropped arenas whose find-root resolves to
it; the free log never records a group twice (the group's combined memory
is released at most once); dropping a live member releases its group's
memory exactly when that member is the last — the counter transitions to
zero — and a drop of a non-last member frees nothing; creation and fusion
never free. -/
theorem group_counter_free_once (ops : List ArenaOp) (i : Nat) (ia : ArenaInfo)
    (hi : (Sys.run ops).arenas.get? i = some ia) (hl : ia.live = true) :
    (∀ g, (Sys.run ops).counts g = (Sys.run ops).liveCount g) ∧
    (Sys.run ops).freed.Nodup ∧
    ((Sys.run ops).dropImpl i).freed =
      (if (Sys.run ops).counts ia.group = 1
        then ia.group :: (Sys.run ops).freed
        else (Sys.run ops).freed) ∧
    (∀ fx, ((Sys.run ops).newImpl fx).freed = (Sys.run ops).freed) ∧
    (∀ a b, ((Sys.run ops).fuseImpl a b).1.freed = (Sys.run ops).freed) := by
  obtain ⟨h1, h2, h3, h4, h5⟩ := inv_run ops
  refine ⟨h2, h4, ?_, fun fx => rfl, fun a b => fuseImpl_freed _ a b⟩
  have hia : ia ∈ (Sys.run ops).arenas := List.get?_mem hi
  have hcg : 0 < (Sys.run ops).counts ia.group := by
    rw [h2]
    exact List.countP_pos_iff.mpr ⟨ia, hia, by simp [liveIn, hl]⟩
  unfold Sys.dropImpl
  rw [hi]
  dsimp only
  rw [if_pos hl]
  by_cases hone : (Sys.run ops).counts ia.group = 1
  · rw [if_pos (show (Sys.run ops).counts ia.group - 1 = 0 by omega),
      if_pos hone]
  · rw [if_neg (show ¬(Sys.run ops).counts ia.group - 1 = 0 by omega),
      if_neg hone]

/-- Witness for C8: two arenas fused into one group of two; dropping the
first member does not free (the counter is 2, not 1). -/
theorem group_counter_free_once_witness :
    ((Sys.run [ArenaOp.newArena false, ArenaOp.newArena false,
        ArenaOp.fuseOp 0 1]).dropImpl 0).freed =
      (if (Sys.run [ArenaOp.newArena false, ArenaOp.newArena false,
          ArenaOp.fuseOp 0 1]).counts 0 = 1
        then 0 :: (Sys.run [ArenaOp.newArena false, ArenaOp.newArena false,
          ArenaOp.fuseOp 0 1]).freed
        else (Sys.run [ArenaOp.newArena false, ArenaOp.newArena false,
          ArenaOp.fuseOp 0 1]).freed) :=
  (group_counter_free_once
    [ArenaOp.newArena false, ArenaOp.newArena false, ArenaOp.fuseOp 0 1]
    0 ⟨0, true, false⟩ (by decide) rfl).2.2.1

theorem step_length (s : Sys) (op : ArenaOp) :
    s.arenas.length ≤ (s.step op).arenas.length := by
  cases op with
  | newArena fx =>
    simp [Sys.step, Sys.newImpl]
  | fuseOp a b =>
    show s.arenas.length ≤ ((s.fuseImpl a b).1).arenas.length
    unfold Sys.fuseImpl
    cases s.arenas.get? a with
    | none => exact Nat.le_refl _
    | some ia =>
      cases s.arenas.get? b with
      | none => exact Nat.le_refl _
      | some ib =>
        dsimp only
        split
        · exact Nat.le_refl _
        · split
          · exact Nat.le_refl _
          · split
            · exact Nat.le_refl _
            · simp
  | dropOp i =>
    show s.arenas.length ≤ (s.dropImpl i).arenas.length
    unfold Sys.dropImpl
    cases s.arenas.get? i with
    | none => exact Nat.le_refl _
    | some ia =>
      dsimp only
      split
      · simp
      · exact Nat.le_refl _

theorem step_groupOf_shape (s : Sys) (op : ArenaOp) :
    ∃ φ : Nat → Nat, ∀ k, k < s.arenas.length →
      (s.step op).groupOf k = φ (s.groupOf k) := by
  cases op with
  | newArena fx =>
    refine ⟨id, fun k hk => ?_⟩
    unfold Sys.step Sys.newImpl Sys.groupOf
    dsimp only
    rw [List.get?_append hk]
    rfl
  | dropOp i =>
    have hstep : s.step (ArenaOp.dropOp i) = s.dropImpl i := rfl
    rw [hstep]
    refine ⟨id, fun k hk => ?_⟩
    unfold Sys.dropImpl
    cases hgi : s.arenas.get? i with
    | none => rfl
    | some ia =>
      dsimp only
      by_cases hlv : ia.live = true
      · rw [if_pos hlv]
        unfold Sys.groupOf
        dsimp only
        by_cases hik : i = k
        · subst hik
          have hilen : i < s.arenas.length := (List.get?_eq_some.mp hgi).1
          rw [List.get?_set_eq_of_lt _ hilen, hgi]
          rfl
        · rw [List.get?_set_ne _ _ hik]
          rfl
      · rw [if_neg hlv]
        rfl
  | fuseOp a b =>
    have hstep : s.step (ArenaOp.fuseOp a b) = (s.fuseImpl a b).1 := rfl
    rw [hstep]
    unfold Sys.fuseImpl
    cases ha : s.arenas.get? a with
    | none => exact ⟨id, fun k hk => rfl⟩
    | some ia =>
      cases hb : s.arenas.get? b with
      | none => exact ⟨id, fun k hk => rfl⟩
      | some ib =>
        dsimp only
        split
        · exact ⟨id, fun k hk => rfl⟩
        · split
          · exact ⟨id, fun k hk => rfl⟩
          · split
            · exact ⟨id, fun k hk => rfl⟩
            · refine ⟨fun g => if g = ib.group then ia.group else g,
                fun k hk => ?_⟩
              unfold Sys.groupOf
              dsimp only
              rw [List.get?_map]
              cases hke : s.arenas.get? k with
              | none =>
                have := List.get?_eq_none.mp hke
                omega
              | some e =>
                dsimp only [Option.map, Option.getD]
                unfold relabel
                by_cases hge : e.group = ib.group
                · simp [hge]
                · simp [hge]

theorem runFrom_groupOf_eq (ops : List ArenaOp) :
    ∀ (s : Sys) (i j : Nat), i < s.arenas.length → j < s.arenas.length →
      s.groupOf i = s.groupOf j →
      (s.runFrom ops).groupOf i = (s.runFrom ops).groupOf j := by
  induction ops with
  | nil => intro s i j _ _ hg; exact hg
  | cons op rest ih =>
    intro s i j hi hj hg
    have hlen := step_length s op
    obtain ⟨φ, hφ⟩ := step_groupOf_shape s op
    exact ih (s.step op) i j (lt_of_lt_of_le hi hlen) (lt_of_lt_of_le hj hlen)
      (by rw [hφ i hi, hφ j hj, hg])

theorem fuseImpl_true_groups (s : Sys) (a b : Nat) (ia ib : ArenaInfo)
    (ha : s.arenas.get? a = some ia) (hb : s.arenas.get? b = some ib)
    (hla : ia.live = true) (hlb : ib.live = true)
    (hok : (s.fuseImpl a b).2 = true) :
    ((s.fuseImpl a b).1).groupOf a = ((s.fuseImpl a b).1).groupOf b := by
  unfold Sys.fuseImpl at hok ⊢
  rw [ha, hb] at hok ⊢
  dsimp only at hok ⊢
  by_cases hfx : ia.fixedBuf = true ∨ ib.fixedBuf = true
  · rw [if_pos hfx] at hok
    simp at hok
  · rw [if_neg hfx] at hok ⊢
    have hnl : ¬(ia.live = false ∨ ib.live = false) := by simp [hla, hlb]
    rw [if_neg hnl] at hok ⊢
    by_cases hgg : ia.group = ib.group
    · rw [if_pos hgg]
      unfold Sys.groupOf
      rw [ha, hb]
      simpa using hgg
    · rw [if_neg hgg]
      unfold Sys.groupOf
      dsimp only
      rw [List.get?_map, List.get?_map, ha, hb]
      dsimp only [Option.map, Option.getD]
      unfold relabel
      rw [if_neg hgg, if_pos rfl]

/-- C9: after a successful `fuse(a, b)` of two live arenas, and after any
further lifecycle events, `a` and `b` still resolve to the same group, and
as long as some member of that group (for instance `b`, or any
transitively fused member) is still live — even if `a` itself has been
dropped — the group's memory has not been freed, so every pointer obtained
from `a` (before or after the fuse) remains dereferenceable; memory
becomes invalid only once no live member remains. -/
theorem fuse_extends_lifetime (pre post : List ArenaOp) (a b : Nat)
    (ia ib : ArenaInfo)
    (ha : (Sys.run pre).arenas.get? a = some ia) (hla : ia.live = true)
    (hb : (Sys.run pre).arenas.get? b = some ib) (hlb : ib.live = true)
    (hok : ((Sys.run pre).fuseImpl a b).2 = true)
    (j : Nat) (jj : ArenaInfo)
    (hj : (Sys.runFrom ((Sys.run pre).fuseImpl a b).1 post).arenas.get? j
        = some jj)
    (hjl : jj.live = true)
    (hjg : jj.group
        = (Sys.runFrom ((Sys.run pre).fuseImpl a b).1 post).groupOf a) :
    (Sys.runFrom ((Sys.run pre).fuseImpl a b).1 post).groupOf a
      = (Sys.runFrom ((Sys.run pre).fuseImpl a b).1 post).groupOf b ∧
    (Sys.runFrom ((Sys.run pre).fuseImpl a b).1 post).groupOf a
      ∉ (Sys.runFrom ((Sys.run pre).fuseImpl a b).1 post).freed := by
  have hInv2 : (Sys.runFrom ((Sys.run pre).fuseImpl a b).1 post).Inv :=
    inv_runFrom (inv_fuse (inv_run pre) a b) post
  obtain ⟨h1, h2, h3, h4, h5⟩ := hInv2
  have halen : a < (Sys.run pre).arenas.length := (List.get?_eq_some.mp ha).1
  have hblen : b < (Sys.run pre).arenas.length := (List.get?_eq_some.mp hb).1
  have hstep := step_length (Sys.run pre) (ArenaOp.fuseOp a b)
  have halen1 : a < ((Sys.run pre).fuseImpl a b).1.arenas.length :=
    lt_of_lt_of_le halen hstep
  have hblen1 : b < ((Sys.run pre).fuseImpl a b).1.arenas.length :=
    lt_of_lt_of_le hblen hstep
  have hsame : ((Sys.run pre).fuseImpl a b).1.groupOf a
      = ((Sys.run pre).fuseImpl a b).1.groupOf b :=
    fuseImpl_true_groups (Sys.run pre) a b ia ib ha hb hla hlb hok
  refine ⟨runFrom_groupOf_eq post _ a b halen1 hblen1 hsame, ?_⟩
  intro hmem
  have hz : (Sys.runFrom ((Sys.run pre).fuseImpl a b).1 post).counts
      ((Sys.runFrom ((Sys.run pre).fuseImpl a b).1 post).groupOf a) = 0 :=
    h3 _ hmem
  have hpos : 0 < (Sys.runFrom ((Sys.run pre).fuseImpl a b).1 post).counts
      ((Sys.runFrom ((Sys.run pre).fuseImpl a b).1 post).groupOf a) := by
    rw [h2]
    exact List.countP_pos_iff.mpr
      ⟨jj, List.get?_mem hj, by simp [liveIn, hjl, hjg]⟩
  omega

/-- Witness for C9: fuse arenas 0 and 1, then drop arena 0; since arena 1
is still live, the shared group has not been freed. -/
theorem fuse_extends_lifetime_witness :
    (Sys.runFrom ((Sys.run [ArenaOp.newArena false,
        ArenaOp.newArena false]).fuseImpl 0 1).1 [ArenaOp.dropOp 0]).groupOf 0
      ∉ (Sys.runFrom ((Sys.run [ArenaOp.newArena false,
        ArenaOp.newArena false]).fuseImpl 0 1).1 [ArenaOp.dropOp 0]).freed :=
  (fuse_extends_lifetime [ArenaOp.newArena false, ArenaOp.newArena false]
    [ArenaOp.dropOp 0] 0 1 ⟨0, true, false⟩ ⟨1, true, false⟩
    (by decide) rfl (by decide) rfl (by decide)
    1 ⟨0, true, false⟩ (by decide) rfl (by decide)).2
